import Mathlib

/-!
Shallow embedding of `schemareader/reader.go` (inter-server-sync).

The repository reads PostgreSQL catalog metadata, assembles one `Table`
entity per target table, elects a provisional "main unique index" per
table, and runs a global correction pass that revokes an election when
one of the elected index's columns is foreign-key-mapped to a
sequence-generated surrogate `id` of another modeled table.

Catalog metadata queries are modeled as a provider structure `Db`: each
field holds the answer the corresponding SQL query in `reader.go` would
return.  The primary-key-sequence query (`readPKSequence`) performs its
own computation (regexp-based name normalization) inside SQL, so for it
the `Db` carries the raw catalog relations (`sequences`, `pkRows`) and
the normalization is embedded here.
-/

namespace SchemaReader

/-- Entity `UniqueIndex` from `tables.go`/`reader.go`: an index name and
the set of column names it covers.  The Go zero value is
`{Name := "", Columns := []}`. -/
structure UniqueIndex where
  Name : String
  Columns : List String
deriving DecidableEq

/-- Entity `Reference`: one outgoing foreign key.  `ColumnMapping` embeds
the Go `map[string]string` (local column -> referenced column) as an
association list with pairwise distinct keys. -/
structure Reference where
  TableName : String
  ColumnMapping : List (String × String)
deriving DecidableEq

/-- Entity `Table`.  `PKColumns` embeds the Go `map[string]bool`,
`UniqueIndexes` the Go `map[string]UniqueIndex`, both as association
lists with pairwise distinct keys (built by `mapInsert`). -/
structure Table where
  Name : String
  Columns : List String
  PKColumns : List (String × Bool)
  PKSequence : String
  UniqueIndexes : List (String × UniqueIndex)
  MainUniqueIndexName : String
  References : List Reference
deriving DecidableEq

/-- Go map insertion `m[key] = v`: overwrites any previous binding for
`key`.  Keys of the resulting list stay pairwise distinct. -/
def mapInsert {α : Type} (m : List (String × α)) (key : String) (v : α) :
    List (String × α) :=
  m.filter (fun p => p.1 != key) ++ [(key, v)]

/-- Go map read `m[key]` on a `map[string]string`: the bound value, or
the zero value `""` when the key is absent. -/
def lookupString (m : List (String × String)) (key : String) : String :=
  match m with
  | [] => ""
  | (k, v) :: rest => if k == key then v else lookupString rest key

/-- Go map read `m[key]` on a `map[string]UniqueIndex`: the bound value,
or the zero value `UniqueIndex{}` when the key is absent. -/
def lookupUniqueIndex (m : List (String × UniqueIndex)) (key : String) :
    UniqueIndex :=
  match m with
  | [] => { Name := "", Columns := [] }
  | (k, v) :: rest => if k == key then v else lookupUniqueIndex rest key

/-- Row of the `id_constraints` relation inside the `readPKSequence`
query: the join of `information_schema.table_constraints` (restricted to
`PRIMARY KEY` constraints of schema `public`) with
`information_schema.key_column_usage` on the constraint name; one row
per column of each primary-key constraint. -/
structure PKRow where
  constraintName : String
  tableName : String
  columnName : String
  ordinalPosition : Nat
deriving DecidableEq

/-- Catalog metadata provider: one field per SQL query issued by
`reader.go`, holding the rows that query would return.  `sequences` is
`information_schema.sequences` (schema `public`) and `pkRows` the
primary-key rows described at `PKRow`; `readPKSequence` computes over
those two relations just as its SQL does. -/
structure Db where
  columnNames : String → List String
  pkColumnNames : String → List String
  sequences : List String
  pkRows : List PKRow
  uniqueIndexNames : String → List String
  indexColumns : String → List String
  referenceConstraintNames : String → List String
  referencedTable : String → String → String
  referenceConstraints : String → String → List (String × String)

/-- Boolean test that `pat` is a prefix of `s`. -/
def leadsWith : List Char → List Char → Bool
  | [], _ => true
  | _ :: _, [] => false
  | p :: ps, c :: cs => p == c && leadsWith ps cs

/-- Length of the POSIX leftmost-longest match of the pattern
`(_id)?_pk(ey)?` at the head of `s` (regexp_replace semantics:
alternatives tried longest first), or `none` when the pattern does not
match at the head. -/
def pkPatLen (s : List Char) : Option Nat :=
  if leadsWith "_id_pkey".toList s then some 8
  else if leadsWith "_id_pk".toList s then some 6
  else if leadsWith "_pkey".toList s then some 5
  else if leadsWith "_pk".toList s then some 3
  else none

/-- Length of the POSIX leftmost-longest match of `(_id)?_seq` at the
head of `s`, or `none`. -/
def seqPatLen (s : List Char) : Option Nat :=
  if leadsWith "_id_seq".toList s then some 7
  else if leadsWith "_seq".toList s then some 4
  else none

/-- PostgreSQL `regexp_replace(s, '(_id)?_pk(ey)?', '')`: remove the
leftmost (longest-at-that-position) occurrence of the pattern, leaving
the rest of the string untouched. -/
def replaceFirstPk : List Char → List Char
  | [] => []
  | c :: rest =>
    match pkPatLen (c :: rest) with
    | some n => (c :: rest).drop n
    | none => c :: replaceFirstPk rest

/-- PostgreSQL `regexp_replace(s, '(_id)?_seq', '')`: remove the
leftmost occurrence of the pattern. -/
def replaceFirstSeq : List Char → List Char
  | [] => []
  | c :: rest =>
    match seqPatLen (c :: rest) with
    | some n => (c :: rest).drop n
    | none => c :: replaceFirstSeq rest

/-- PostgreSQL `replace(s, '_', '')`: drop every underscore. -/
def stripUnderscores (s : List Char) : List Char :=
  s.filter (fun c => c != '_')

/-- Normalization applied to a primary-key constraint name in the
`readPKSequence` SQL:
`replace(regexp_replace(constraint_name, '(_id)?_pk(ey)?', ''), '_', '')`. -/
def normalizeConstraintName (s : String) : List Char :=
  stripUnderscores (replaceFirstPk s.toList)

/-- Normalization applied to a sequence name in the `readPKSequence`
SQL: `replace(regexp_replace(sequence_name, '(_id)?_seq', ''), '_', '')`. -/
def normalizeSequenceName (s : String) : List Char :=
  stripUnderscores (replaceFirstSeq s.toList)

/-- Embeds `readPKSequence`: filter the primary-key rows down to rows of
the requested table having column `id` at ordinal position 1, join with
the sequences on equality of the normalized names, and return the first
resulting sequence name — or `""` when the join is empty (the Go code
ignores the failed `Scan` and returns the zero value). -/
def readPKSequence (db : Db) (tableName : String) : String :=
  let idConstraints := db.pkRows.filter fun r =>
    r.ordinalPosition == 1 && r.columnName == "id" && r.tableName == tableName
  let joined := idConstraints.flatMap fun r =>
    db.sequences.filter fun s =>
      normalizeConstraintName r.constraintName == normalizeSequenceName s
  joined.headD ""

/-- Embeds `findIndex`: scan the entries of the unique-index map in the
given enumeration order and return the name of the first index covering
`columnName`, or `""` when none does.  In Go the enumeration order of a
`map` range is unspecified, so the entry list is an arbitrary
permutation of the map's contents. -/
def findIndex (indexes : List (String × UniqueIndex)) (columnName : String) :
    String :=
  match indexes with
  | [] => ""
  | (name, index) :: rest =>
    if index.Columns.contains columnName then name
    else findIndex rest columnName

/-- Embeds the provisional main-index election in `ReadTables` (lines
286-297): zero unique indexes elect `""`; exactly one elects it; more
than one prefer an index containing `label`, then one containing `name`,
then fall back to `indexNames[0]`.  `indexes` is the unique-index map in
the (unspecified) order a Go map range enumerates it. -/
def electMainIndexWith (indexNames : List String)
    (indexes : List (String × UniqueIndex)) : String :=
  if indexNames.length == 1 then
    indexNames.headD ""
  else if indexNames.length > 1 then
    let byLabel := findIndex indexes "label"
    if byLabel.length == 0 then
      let byName := findIndex indexes "name"
      if byName.length == 0 then indexNames.headD "" else byName
    else byLabel
  else ""

/-- Builds the Go `indexes` map of `ReadTables` in insertion order: one
`UniqueIndex` per unique-index name, its columns fetched from the
provider. -/
def buildIndexes (db : Db) (indexNames : List String) :
    List (String × UniqueIndex) :=
  indexNames.foldl
    (fun m indexName =>
      mapInsert m indexName
        { Name := indexName, Columns := db.indexColumns indexName })
    []

/-- Embeds the per-table assembly of `ReadTables` (lines 268-307):
fetch columns, primary-key columns, primary-key sequence, unique
indexes, elect the provisional main index, fetch the references, and
build the `Table` entity.  The unique-index map is enumerated in
insertion order here; lemmas that depend on the enumeration order take
it as an explicit argument instead. -/
def assembleTable (db : Db) (tableName : String) : Table :=
  let columns := db.columnNames tableName
  let pkColumns := db.pkColumnNames tableName
  let pkColumnMap := pkColumns.foldl (fun m column => mapInsert m column true) []
  let pkSequence := readPKSequence db tableName
  let indexNames := db.uniqueIndexNames tableName
  let indexes := buildIndexes db indexNames
  let mainUniqueIndexName := electMainIndexWith indexNames indexes
  let constraintNames := db.referenceConstraintNames tableName
  let references := constraintNames.map fun constraintName =>
    { TableName := db.referencedTable tableName constraintName
      ColumnMapping := db.referenceConstraints tableName constraintName }
  { Name := tableName, Columns := columns, PKColumns := pkColumnMap
    PKSequence := pkSequence, UniqueIndexes := indexes
    MainUniqueIndexName := mainUniqueIndexName, References := references }

/-- Revocation condition of the correction pass (lines 311-328) for one
table against the current table list: the table has a non-empty main
index and some column of that index is mapped by some reference to a
column named `id` of a table that appears in `current` with a non-empty
primary-key sequence. -/
def shouldRevoke (current : List Table) (table : Table) : Bool :=
  decide (0 < table.MainUniqueIndexName.length) &&
  ((lookupUniqueIndex table.UniqueIndexes table.MainUniqueIndexName).Columns.any
    fun column =>
      table.References.any fun reference =>
        (lookupString reference.ColumnMapping column == "id") &&
        current.any fun referencedTable =>
          (referencedTable.Name == reference.TableName) &&
          !(referencedTable.PKSequence == ""))

/-- Worker of the correction pass.  The Go loop walks `result` by index,
examining `result[i]` against the current (partially corrected) slice
and clearing `result[i].MainUniqueIndexName` when the revocation
condition holds; here `done` is the corrected prefix and `todo` the
untouched suffix, so the current slice is always `done ++ todo`. -/
def correctionGo (done : List Table) : List Table → List Table
  | [] => done
  | table :: rest =>
    let table2 :=
      if shouldRevoke (done ++ table :: rest) table then
        { table with MainUniqueIndexName := "" }
      else table
    correctionGo (done ++ [table2]) rest

/-- Embeds the global correction pass of `ReadTables` (lines 310-328). -/
def correctionPass (result : List Table) : List Table :=
  correctionGo [] result

/-- Fixed target-table list of `readTableNames` (the Go function ignores
its database argument). -/
def readTableNames : List String :=
  ["rhnchannel", "rhnchannelarch", "rhnchannelerrata", "rhnchannelfamily",
   "rhnchannelfamilymembers", "rhnerrata", "rhnchannelproduct",
   "suseproducts", "rhnproductname",
   "rhnpackagearch", "rhnerrataseverity", "rhnchecksumtype", "rhnarchtype"]

/-- Embeds `ReadTables`: assemble one `Table` per target name, then run
the global correction pass over the full list. -/
def ReadTables (db : Db) : List Table :=
  correctionPass (readTableNames.map (assembleTable db))

/-- Clearing a table's main unique index, the only mutation the
correction pass performs (`result[i].MainUniqueIndexName = ""`). -/
def clearMain (table : Table) : Table :=
  { table with MainUniqueIndexName := "" }

/-- Net effect of the correction pass on one table, relative to a fixed
current table list. -/
def stepTable (current : List Table) (table : Table) : Table :=
  if shouldRevoke current table then clearMain table else table

/-- Projection of a table to the two fields the revocation condition
reads from the surrounding table list. -/
def tableKey (t : Table) : String × String :=
  (t.Name, t.PKSequence)

/-- Fallible catalog metadata provider: one field per SQL query of
`reader.go`, each returning `Except` to model a failed `db.Query` (the
Go code reacts to any such failure with `log.Fatal`, i.e. immediate
abort of the run, which the `Except` monad models as short-circuiting).
The primary-key-sequence query is a single round-trip, so it appears
here as one fallible answer. -/
structure DbE where
  columnNames : String → Except String (List String)
  pkColumnNames : String → Except String (List String)
  pkSequence : String → Except String String
  uniqueIndexNames : String → Except String (List String)
  indexColumns : String → Except String (List String)
  referenceConstraintNames : String → Except String (List String)
  referencedTable : String → String → Except String String
  referenceConstraints : String → String → Except String (List (String × String))

/-- Fallible variant of `buildIndexes`: the per-index column query can
fail, aborting the run. -/
def buildIndexesE (db : DbE) (indexNames : List String) :
    Except String (List (String × UniqueIndex)) :=
  indexNames.foldlM
    (fun m indexName => do
      let cols ← db.indexColumns indexName
      pure (mapInsert m indexName { Name := indexName, Columns := cols }))
    []

/-- Fallible variant of `assembleTable`: any failing metadata query
aborts the whole assembly with that error. -/
def assembleTableE (db : DbE) (tableName : String) : Except String Table := do
  let columns ← db.columnNames tableName
  let pkColumns ← db.pkColumnNames tableName
  let pkColumnMap := pkColumns.foldl (fun m column => mapInsert m column true) []
  let pkSequence ← db.pkSequence tableName
  let indexNames ← db.uniqueIndexNames tableName
  let indexes ← buildIndexesE db indexNames
  let mainUniqueIndexName := electMainIndexWith indexNames indexes
  let constraintNames ← db.referenceConstraintNames tableName
  let references ← constraintNames.mapM fun constraintName => do
    let columnMap ← db.referenceConstraints tableName constraintName
    let refTable ← db.referencedTable tableName constraintName
    pure { TableName := refTable, ColumnMapping := columnMap : Reference }
  pure { Name := tableName, Columns := columns, PKColumns := pkColumnMap
         PKSequence := pkSequence, UniqueIndexes := indexes
         MainUniqueIndexName := mainUniqueIndexName, References := references }

/-- Fallible variant of `ReadTables`: the first failing query aborts the
run with its error and no table list is produced; otherwise every target
table is assembled and the correction pass runs on the full list. -/
def ReadTablesE (db : DbE) : Except String (List Table) := do
  let assembled ← readTableNames.mapM (assembleTableE db)
  pure (correctionPass assembled)

/-- Boolean test that `suf` is a suffix of `s`. -/
def trailsWith (suf s : List Char) : Bool :=
  leadsWith suf.reverse s.reverse

/-- Modelled from the spec: the spec describes the name normalization of
the primary-key-sequence heuristic as stripping the conventional
suffixes `_id`, `_pk`/`_pkey` and trailing `_seq`; this strips those
suffixes from the end of the name, repeatedly, in the most generous
reading (fuel bounds the recursion by the name length). -/
def specStripSuffixes (fuel : Nat) (s : List Char) : List Char :=
  match fuel with
  | 0 => s
  | fuel + 1 =>
    if trailsWith "_pkey".toList s then
      specStripSuffixes fuel (s.take (s.length - 5))
    else if trailsWith "_pk".toList s then
      specStripSuffixes fuel (s.take (s.length - 3))
    else if trailsWith "_seq".toList s then
      specStripSuffixes fuel (s.take (s.length - 4))
    else if trailsWith "_id".toList s then
      specStripSuffixes fuel (s.take (s.length - 3))
    else s

/-- Modelled from the spec: suffix-based name normalization — strip the
conventional suffixes from the end, then remove underscores. -/
def specNormalizeName (s : String) : List Char :=
  stripUnderscores (specStripSuffixes s.toList.length s.toList)

/-- Modelled from the spec: the claimed precondition that the table's
primary key is the single column `id` at ordinal position 1. -/
def specSingleIdPrimaryKey (db : Db) (tableName : String) : Bool :=
  match db.pkRows.filter (fun r => r.tableName == tableName) with
  | [r] => r.columnName == "id" && r.ordinalPosition == 1
  | _ => false

/-- Modelled from the spec: the claimed precondition that some sequence
name matches the primary-key constraint name under the suffix-based
normalization. -/
def specSequenceMatch (db : Db) (constraintName : String) : Bool :=
  db.sequences.any fun s => specNormalizeName s == specNormalizeName constraintName

/-- Provider whose answers are all empty. -/
def emptyDb : Db :=
  { columnNames := fun _ => [], pkColumnNames := fun _ => []
    sequences := [], pkRows := []
    uniqueIndexNames := fun _ => [], indexColumns := fun _ => []
    referenceConstraintNames := fun _ => []
    referencedTable := fun _ _ => "", referenceConstraints := fun _ _ => [] }

/-- Provider with two unique indexes on table `t`, one of them named by
the empty string and covering column `label`, the other covering
`name`. -/
def dbLabelEmptyName : Db :=
  { emptyDb with
    uniqueIndexNames := fun _ => ["", "i2"]
    indexColumns := fun n => if n == "" then ["label"] else ["name"] }

/-- Provider whose catalog has a two-column primary key on table `t`
(columns `id` at position 1 and `x` at position 2, constraint
`t_old_pk`) and the single sequence `t_seq_old`. -/
def dbCompositePK : Db :=
  { emptyDb with
    pkRows := [{ constraintName := "t_old_pk", tableName := "t"
                 columnName := "id", ordinalPosition := 1 },
               { constraintName := "t_old_pk", tableName := "t"
                 columnName := "x", ordinalPosition := 2 }]
    sequences := ["t_seq_old"] }

/-- Provider whose catalog has the single-column primary key `id` on
table `w` (constraint `w_pk`) and the matching sequence `w_seq`. -/
def dbSingleIdPK : Db :=
  { emptyDb with
    pkRows := [{ constraintName := "w_pk", tableName := "w"
                 columnName := "id", ordinalPosition := 1 }]
    sequences := ["w_seq"] }

/-- Provider with one unique index `idx` on column `fk` for table `t`,
where `fk` is foreign-key-mapped to column `id` of table `rt`, and `rt`
has the sequence-backed primary key `rt_id_seq`. -/
def dbRevocation : Db :=
  { emptyDb with
    uniqueIndexNames := fun tn => if tn == "t" then ["idx"] else []
    indexColumns := fun n => if n == "idx" then ["fk"] else []
    referenceConstraintNames := fun tn => if tn == "t" then ["t_fk"] else []
    referencedTable := fun _ _ => "rt"
    referenceConstraints := fun _ _ => [("fk", "id")]
    pkRows := [{ constraintName := "rt_pk", tableName := "rt"
                 columnName := "id", ordinalPosition := 1 }]
    sequences := ["rt_id_seq"] }

/-- Fallible provider whose answers are all empty and always succeed. -/
def emptyDbE : DbE :=
  { columnNames := fun _ => Except.ok [], pkColumnNames := fun _ => Except.ok []
    pkSequence := fun _ => Except.ok ""
    uniqueIndexNames := fun _ => Except.ok [], indexColumns := fun _ => Except.ok []
    referenceConstraintNames := fun _ => Except.ok []
    referencedTable := fun _ _ => Except.ok ""
    referenceConstraints := fun _ _ => Except.ok [] }

/-! Helper lemmas about the correction pass. -/

theorem String.length_pos_of_ne_empty (s : String) (h : s ≠ "") :
    0 < s.length := by
  cases s with
  | mk data =>
    cases data with
    | nil => exact absurd rfl h
    | cons c cs => simp [String.length]

theorem any_map_general {α β : Type} (f : α → β) (p : β → Bool) :
    ∀ l : List α, (l.map f).any p = l.any (fun a => p (f a))
  | [] => rfl
  | a :: t => by simp [List.any_cons, any_map_general f p t]

theorem any_tableKey_congr (c1 c2 : List Table)
    (h : c1.map tableKey = c2.map tableKey) (n : String) :
    (c1.any fun rt => (rt.Name == n) && !(rt.PKSequence == "")) =
    (c2.any fun rt => (rt.Name == n) && !(rt.PKSequence == "")) := by
  have h2 := congrArg
    (fun l => l.any (fun p : String × String => (p.1 == n) && !(p.2 == ""))) h
  simpa [any_map_general, tableKey] using h2

theorem shouldRevoke_congr (c1 c2 : List Table)
    (h : c1.map tableKey = c2.map tableKey) (t : Table) :
    shouldRevoke c1 t = shouldRevoke c2 t := by
  unfold shouldRevoke
  simp only [any_tableKey_congr c1 c2 h]

theorem tableKey_stepTable (c : List Table) (t : Table) :
    tableKey (stepTable c t) = tableKey t := by
  unfold stepTable
  split <;> rfl

theorem correctionGo_eq (todo : List Table) :
    ∀ done : List Table,
      correctionGo done todo = done ++ todo.map (stepTable (done ++ todo)) := by
  induction todo with
  | nil => intro done; simp [correctionGo]
  | cons t rest ih =>
    intro done
    rw [show correctionGo done (t :: rest) =
          correctionGo (done ++ [stepTable (done ++ t :: rest) t]) rest from rfl]
    generalize hs : stepTable (done ++ t :: rest) t = s
    rw [ih (done ++ [s])]
    have hkey : tableKey s = tableKey t := by
      rw [← hs]; exact tableKey_stepTable _ _
    have hkeys : ((done ++ [s]) ++ rest).map tableKey
        = (done ++ t :: rest).map tableKey := by
      simp [hkey]
    have hstep : ∀ x, stepTable ((done ++ [s]) ++ rest) x
        = stepTable (done ++ t :: rest) x := by
      intro x
      unfold stepTable
      rw [shouldRevoke_congr _ _ hkeys]
    rw [List.map_congr_left (fun x _ => hstep x)]
    simp [hs]

theorem correctionPass_eq_map (l : List Table) :
    correctionPass l = l.map (stepTable l) := by
  have h := correctionGo_eq l []
  simpa [correctionPass] using h

theorem correctionPass_length (l : List Table) :
    (correctionPass l).length = l.length := by
  rw [correctionPass_eq_map]
  simp

theorem shouldRevoke_true_iff (current : List Table) (t : Table) :
    shouldRevoke current t = true ↔
      0 < t.MainUniqueIndexName.length ∧
      ∃ c ∈ (lookupUniqueIndex t.UniqueIndexes t.MainUniqueIndexName).Columns,
        ∃ ref ∈ t.References,
          lookupString ref.ColumnMapping c = "id" ∧
          ∃ rt ∈ current, rt.Name = ref.TableName ∧ rt.PKSequence ≠ "" := by
  simp [shouldRevoke, List.any_eq_true]

/-- C1: for every table T in the assembled set with a non-empty
provisional MainUniqueIndexName, if some column of the elected index is
mapped by one of T's References to a referenced column named `id`, and
the referenced table is found in the assembled set with a non-empty
primary-key sequence, then after the global correction pass T's
MainUniqueIndexName is the empty string. -/
theorem claim1_revocation (result : List Table) (i : Nat) (h : i < result.length)
    (hmain : result[i].MainUniqueIndexName ≠ "")
    (hcond : ∃ c ∈ (lookupUniqueIndex result[i].UniqueIndexes
                      result[i].MainUniqueIndexName).Columns,
             ∃ ref ∈ result[i].References,
               lookupString ref.ColumnMapping c = "id" ∧
               ∃ rt ∈ result, rt.Name = ref.TableName ∧ rt.PKSequence ≠ "") :
    ∃ u, (correctionPass result)[i]? = some u ∧ u.MainUniqueIndexName = "" := by
  have hrev : shouldRevoke result result[i] = true :=
    (shouldRevoke_true_iff result result[i]).mpr
      ⟨String.length_pos_of_ne_empty _ hmain, hcond⟩
  refine ⟨clearMain result[i], ?_, rfl⟩
  rw [correctionPass_eq_map, List.getElem?_map, List.getElem?_eq_getElem h]
  simp [stepTable, hrev]

/-- Witness for C1 on a concrete provider: table `t` has the single
unique index `idx` on column `fk`, `fk` is mapped to `rt.id`, and `rt`
has a non-empty primary-key sequence, so the pass clears `t`'s main
index. -/
theorem claim1_revocation_witness :
    ∃ u, (correctionPass
            [assembleTable dbRevocation "t",
             assembleTable dbRevocation "rt"])[0]? = some u ∧
      u.MainUniqueIndexName = "" :=
  claim1_revocation
    [assembleTable dbRevocation "t", assembleTable dbRevocation "rt"]
    0 (by decide) (by decide) (by decide)

/-- C2: for every table T, if no column of T's elected index is
foreign-key-mapped to a referenced column named `id` in a table that is
both present in the assembled set and has a non-empty primary-key
sequence, then the correction pass leaves T's MainUniqueIndexName
exactly as provisionally elected (a referenced column not named `id`, a
referenced table with empty primary-key sequence, or a referenced table
absent from the set never causes revocation). -/
theorem claim2_non_revocation (result : List Table) (i : Nat)
    (h : i < result.length)
    (hcond : ¬ ∃ c ∈ (lookupUniqueIndex result[i].UniqueIndexes
                        result[i].MainUniqueIndexName).Columns,
               ∃ ref ∈ result[i].References,
                 lookupString ref.ColumnMapping c = "id" ∧
                 ∃ rt ∈ result, rt.Name = ref.TableName ∧ rt.PKSequence ≠ "") :
    ∃ u, (correctionPass result)[i]? = some u ∧
      u.MainUniqueIndexName = result[i].MainUniqueIndexName := by
  have hrev : shouldRevoke result result[i] = false := by
    cases hb : shouldRevoke result result[i] with
    | false => rfl
    | true =>
      obtain ⟨-, hex⟩ := (shouldRevoke_true_iff result result[i]).mp hb
      exact absurd hex hcond
  refine ⟨result[i], ?_, rfl⟩
  rw [correctionPass_eq_map, List.getElem?_map, List.getElem?_eq_getElem h]
  simp [stepTable, hrev]

/-- Witness for C2 on a concrete provider: the referenced table `rt` is
absent from the assembled set, so no revocation occurs and `t` keeps its
elected index `idx`. -/
theorem claim2_non_revocation_witness :
    ∃ u, (correctionPass [assembleTable dbRevocation "t"])[0]? = some u ∧
      u.MainUniqueIndexName =
        (assembleTable dbRevocation "t").MainUniqueIndexName :=
  claim2_non_revocation [assembleTable dbRevocation "t"] 0 (by decide) (by decide)

/-- C5: the global correction pass is idempotent — applying it twice to
any assembled table set yields exactly the same sequence of Table
entities as applying it once. -/
theorem claim5_idempotent (result : List Table) :
    correctionPass (correctionPass result) = correctionPass result := by
  have hproj : (result.map (stepTable result)).map tableKey
      = result.map tableKey := by
    rw [List.map_map]
    exact List.map_congr_left fun x _ => tableKey_stepTable result x
  have hsr : ∀ x, shouldRevoke (result.map (stepTable result)) x
      = shouldRevoke result x :=
    fun x => shouldRevoke_congr _ _ hproj x
  rw [correctionPass_eq_map result,
      correctionPass_eq_map (result.map (stepTable result)), List.map_map]
  apply List.map_congr_left
  intro x _
  show stepTable (result.map (stepTable result)) (stepTable result x)
      = stepTable result x
  by_cases hx : shouldRevoke result x = true
  · have h1 : stepTable result x = clearMain x := by simp [stepTable, hx]
    rw [h1]
    have h2 : shouldRevoke (result.map (stepTable result)) (clearMain x)
        = false := by
      unfold shouldRevoke
      rw [show (decide (0 < (clearMain x).MainUniqueIndexName.length)) = false
            from rfl]
      rw [Bool.false_and]
    simp [stepTable, h2]
  · have hx2 : shouldRevoke result x = false := by
      cases hb : shouldRevoke result x with
      | false => rfl
      | true => exact absurd hb hx
    simp [stepTable, hx2, hsr]

/-- C8: the global correction pass mutates at most the
MainUniqueIndexName field of each Table (possibly clearing it to empty);
every other field, and the order and number of tables, are identical
before and after the pass. -/
theorem claim8_frame (result : List Table) :
    List.Forall₂
      (fun t u => u.Name = t.Name ∧ u.Columns = t.Columns ∧
        u.PKColumns = t.PKColumns ∧ u.PKSequence = t.PKSequence ∧
        u.UniqueIndexes = t.UniqueIndexes ∧ u.References = t.References ∧
        (u.MainUniqueIndexName = t.MainUniqueIndexName ∨
         u.MainUniqueIndexName = ""))
      result (correctionPass result) ∧
    (correctionPass result).length = result.length := by
  constructor
  · rw [correctionPass_eq_map, List.forall₂_map_right_iff, List.forall₂_same]
    intro x _
    by_cases hx : shouldRevoke result x = true
    · simp [stepTable, hx, clearMain]
    · simp [stepTable, hx]
  · exact correctionPass_length result

/-! Lemmas about `findIndex` and the provisional election. -/

theorem findIndex_not_found (col : String) :
    ∀ indexes : List (String × UniqueIndex),
      (∀ p ∈ indexes, col ∉ p.2.Columns) → findIndex indexes col = ""
  | [], _ => rfl
  | (name, index) :: rest, h => by
    have hhead : col ∉ index.Columns := h (name, index) (by simp)
    have hcont : index.Columns.contains col = false := by
      simpa using hhead
    simp only [findIndex, hcont]
    exact findIndex_not_found col rest fun p hp => h p (by simp [hp])

theorem findIndex_found (col : String) :
    ∀ indexes : List (String × UniqueIndex),
      (∃ p ∈ indexes, col ∈ p.2.Columns) →
      ∃ p ∈ indexes, p.1 = findIndex indexes col ∧ col ∈ p.2.Columns
  | [], h => by simp at h
  | (name, index) :: rest, h => by
    by_cases hc : index.Columns.contains col
    · refine ⟨(name, index), by simp, ?_, by simpa using hc⟩
      simp only [findIndex]
      rw [if_pos hc]
    · have hrest : ∃ p ∈ rest, col ∈ p.2.Columns := by
        obtain ⟨p, hp, hcol⟩ := h
        rcases List.mem_cons.mp hp with heq | hmem
        · subst heq; exact absurd (by simpa using hcol) hc
        · exact ⟨p, hmem, hcol⟩
      obtain ⟨p, hp, heq, hcol⟩ := findIndex_found col rest hrest
      refine ⟨p, by simp [hp], ?_, hcol⟩
      simp only [findIndex]
      rw [if_neg hc]
      exact heq

/-- C7: for every table with zero unique indexes the provisional
MainUniqueIndexName is the empty string, and for every table with
exactly one unique index it equals that index's name. -/
theorem claim7_zero_one_index (db : Db) (tableName : String) :
    (db.uniqueIndexNames tableName = [] →
      (assembleTable db tableName).MainUniqueIndexName = "") ∧
    (∀ n, db.uniqueIndexNames tableName = [n] →
      (assembleTable db tableName).MainUniqueIndexName = n) := by
  have key : ∀ names, db.uniqueIndexNames tableName = names →
      (assembleTable db tableName).MainUniqueIndexName
        = electMainIndexWith names (buildIndexes db names) := by
    intro names h
    rw [show (assembleTable db tableName).MainUniqueIndexName
          = electMainIndexWith (db.uniqueIndexNames tableName)
              (buildIndexes db (db.uniqueIndexNames tableName)) from rfl, h]
  constructor
  · intro h; rw [key [] h]; rfl
  · intro n h; rw [key [n] h]; rfl

/-- Witness for C7: with the concrete provider `dbRevocation`, table
`rt` has no unique index and elects `""`, table `t` has exactly the one
unique index `idx` and elects it. -/
theorem claim7_zero_one_index_witness :
    (assembleTable dbRevocation "rt").MainUniqueIndexName = "" ∧
    (assembleTable dbRevocation "t").MainUniqueIndexName = "idx" :=
  ⟨(claim7_zero_one_index dbRevocation "rt").1 rfl,
   (claim7_zero_one_index dbRevocation "t").2 "idx" rfl⟩

/-- C10: when a table has more than one unique index and none of them
contains a column named `label` or `name`, the provisionally elected
MainUniqueIndexName is the first index name in the order the provider
enumerated the unique indexes (`indexNames[0]`), for every enumeration
order of the unique-index map. -/
theorem claim10_fallback_first (indexNames : List String)
    (indexes : List (String × UniqueIndex))
    (hlen : 1 < indexNames.length)
    (hno : ∀ p ∈ indexes, "label" ∉ p.2.Columns ∧ "name" ∉ p.2.Columns) :
    electMainIndexWith indexNames indexes = indexNames.get ⟨0, by omega⟩ := by
  have h1 : findIndex indexes "label" = "" :=
    findIndex_not_found "label" indexes fun p hp => (hno p hp).1
  have h2 : findIndex indexes "name" = "" :=
    findIndex_not_found "name" indexes fun p hp => (hno p hp).2
  have hb1 : ¬ ((indexNames.length == 1) = true) := by simp; omega
  have hhead : indexNames.headD "" = indexNames.get ⟨0, by omega⟩ := by
    cases indexNames with
    | nil => simp at hlen
    | cons a t => rfl
  unfold electMainIndexWith
  rw [if_neg hb1, if_pos hlen, h1, h2]
  simpa using hhead

/-- Witness for C10: two unique indexes covering columns `a` and `b`
only; the election falls back to the first provider-enumerated name. -/
theorem claim10_fallback_first_witness :
    electMainIndexWith ["i1", "i2"]
      [("i1", { Name := "i1", Columns := ["a"] }),
       ("i2", { Name := "i2", Columns := ["b"] })] = "i1" := by
  have h := claim10_fallback_first ["i1", "i2"]
    [("i1", { Name := "i1", Columns := ["a"] }),
     ("i2", { Name := "i2", Columns := ["b"] })]
    (by decide) (by decide)
  exact h

/-- C3 counterexample: provider `dbLabelEmptyName` gives table `t` two
unique indexes, one named `""` covering column `label` and one named
`i2` covering column `name`.  `findIndex` returns the empty name for the
`label` index, which the election treats as "not found" and falls
through to the `name` index: the elected index `i2` does not contain
`label` although a unique index containing `label` exists, refuting the
claim as stated. -/
theorem claim3_counterexample :
    1 < (dbLabelEmptyName.uniqueIndexNames "t").length ∧
    (∃ p ∈ (assembleTable dbLabelEmptyName "t").UniqueIndexes,
      "label" ∈ p.2.Columns) ∧
    (assembleTable dbLabelEmptyName "t").MainUniqueIndexName = "i2" ∧
    ¬ ∃ p ∈ (assembleTable dbLabelEmptyName "t").UniqueIndexes,
        p.1 = (assembleTable dbLabelEmptyName "t").MainUniqueIndexName ∧
        "label" ∈ p.2.Columns := by
  decide

/-- C3 (amended): for every table with more than one unique index, none
of which is named by the empty string, if at least one unique index
contains a column literally named `label` then the provisionally
elected MainUniqueIndexName is an index containing `label`; otherwise,
if at least one contains a column named `name`, the elected index
contains `name`.  The `indexes` argument is the unique-index map in any
enumeration order. -/
theorem claim3_label_preference (indexNames : List String)
    (indexes : List (String × UniqueIndex))
    (hlen : 1 < indexNames.length)
    (hne : ∀ p ∈ indexes, p.1 ≠ "") :
    ((∃ p ∈ indexes, "label" ∈ p.2.Columns) →
      ∃ p ∈ indexes, p.1 = electMainIndexWith indexNames indexes ∧
        "label" ∈ p.2.Columns) ∧
    ((¬ ∃ p ∈ indexes, "label" ∈ p.2.Columns) →
      (∃ p ∈ indexes, "name" ∈ p.2.Columns) →
      ∃ p ∈ indexes, p.1 = electMainIndexWith indexNames indexes ∧
        "name" ∈ p.2.Columns) := by
  have hb1 : ¬ ((indexNames.length == 1) = true) := by simp; omega
  constructor
  · intro hex
    obtain ⟨p, hp, hpeq, hplabel⟩ := findIndex_found "label" indexes hex
    have hne2 : findIndex indexes "label" ≠ "" := by
      rw [← hpeq]; exact hne p hp
    have hlab : ¬ (((findIndex indexes "label").length == 0) = true) := by
      simp
      exact Nat.pos_iff_ne_zero.mp (String.length_pos_of_ne_empty _ hne2)
    refine ⟨p, hp, ?_, hplabel⟩
    unfold electMainIndexWith
    rw [if_neg hb1, if_pos hlen, if_neg hlab]
    exact hpeq
  · intro hnolabel hexname
    have h1 : findIndex indexes "label" = "" :=
      findIndex_not_found "label" indexes fun p hp hcol => hnolabel ⟨p, hp, hcol⟩
    obtain ⟨p, hp, hpeq, hpname⟩ := findIndex_found "name" indexes hexname
    have hne2 : findIndex indexes "name" ≠ "" := by
      rw [← hpeq]; exact hne p hp
    have hnm : ¬ (((findIndex indexes "name").length == 0) = true) := by
      simp
      exact Nat.pos_iff_ne_zero.mp (String.length_pos_of_ne_empty _ hne2)
    refine ⟨p, hp, ?_, hpname⟩
    unfold electMainIndexWith
    rw [if_neg hb1, if_pos hlen, h1]
    dsimp only
    rw [if_pos (show ((("" : String).length == 0) = true) from rfl), if_neg hnm]
    exact hpeq

/-- Witness for the amended C3: two uniquely named indexes, the first
covering `label`; the election picks an index containing `label`. -/
theorem claim3_label_preference_witness :
    ∃ p ∈ [("a", { Name := "a", Columns := ["label"] : UniqueIndex }),
           ("b", { Name := "b", Columns := ["name"] })],
      p.1 = electMainIndexWith ["a", "b"]
              [("a", { Name := "a", Columns := ["label"] }),
               ("b", { Name := "b", Columns := ["name"] })] ∧
      "label" ∈ p.2.Columns :=
  (claim3_label_preference ["a", "b"]
      [("a", { Name := "a", Columns := ["label"] }),
       ("b", { Name := "b", Columns := ["name"] })]
      (by decide) (by decide)).1 (by decide)

/-- C6 counterexample: two enumerations of the same unique-index map
(the two lists are permutations of each other, as two runs of a Go map
range can produce), with identical provider answers, elect different
main indexes when two indexes both contain `label` — the election is
not a function of the assembled contents alone. -/
theorem claim6_counterexample :
    List.Perm
      [("i1", { Name := "i1", Columns := ["label"] : UniqueIndex }),
       ("i2", { Name := "i2", Columns := ["label"] })]
      [("i2", { Name := "i2", Columns := ["label"] : UniqueIndex }),
       ("i1", { Name := "i1", Columns := ["label"] })] ∧
    electMainIndexWith ["i1", "i2"]
      [("i1", { Name := "i1", Columns := ["label"] }),
       ("i2", { Name := "i2", Columns := ["label"] })] = "i1" ∧
    electMainIndexWith ["i1", "i2"]
      [("i2", { Name := "i2", Columns := ["label"] }),
       ("i1", { Name := "i1", Columns := ["label"] })] = "i2" := by
  refine ⟨?_, rfl, rfl⟩
  decide

theorem countP_le_one_of_cons {α : Type} (p : α → Bool) (x : α) (l : List α)
    (h : (x :: l).countP p ≤ 1) : l.countP p ≤ 1 := by
  rw [List.countP_cons] at h
  omega

theorem findIndex_perm (col : String) :
    ∀ {e1 e2 : List (String × UniqueIndex)}, e1.Perm e2 →
      e1.countP (fun p => p.2.Columns.contains col) ≤ 1 →
      findIndex e1 col = findIndex e2 col := by
  intro e1 e2 hperm
  induction hperm with
  | nil => intro _; rfl
  | @cons x l1 l2 h ih =>
    intro hcount
    cases hx : x.2.Columns.contains col
    · simp only [findIndex, hx]
      simp
      exact ih (countP_le_one_of_cons _ x l1 hcount)
    · simp only [findIndex, hx]
      simp
  | @swap x y l =>
    intro hcount
    cases hx : x.2.Columns.contains col <;>
      cases hy : y.2.Columns.contains col
    · simp only [findIndex, hx, hy]
      simp
    · simp only [findIndex, hx, hy]
      simp
    · simp only [findIndex, hx, hy]
      simp
    · exfalso
      rw [List.countP_cons, List.countP_cons] at hcount
      rw [hx, hy] at hcount
      simp at hcount
  | @trans l1 l2 l3 h12 h23 ih12 ih23 =>
    intro hcount
    refine (ih12 hcount).trans (ih23 ?_)
    rw [← h12.countP_eq]
    exact hcount

/-- C6 (amended): the provisional election depends on the enumeration
order of the unique-index map, so it is deterministic only up to that
order; when at most one unique index contains `label` and at most one
contains `name`, any two enumeration orders of the same unique-index
collection (with the same provider answers) elect the same
MainUniqueIndexName, and the correction pass — a pure function of the
assembled set — preserves that determinism. -/
theorem claim6_order_independence (indexNames : List String)
    (e1 e2 : List (String × UniqueIndex))
    (hperm : e1.Perm e2)
    (hlabel : e1.countP (fun p => p.2.Columns.contains "label") ≤ 1)
    (hname : e1.countP (fun p => p.2.Columns.contains "name") ≤ 1) :
    electMainIndexWith indexNames e1 = electMainIndexWith indexNames e2 := by
  unfold electMainIndexWith
  rw [findIndex_perm "label" hperm hlabel, findIndex_perm "name" hperm hname]

/-- Witness for the amended C6: a map with one `label` index and one
other index elects the same name under both enumeration orders. -/
theorem claim6_order_independence_witness :
    electMainIndexWith ["a", "b"]
      [("a", { Name := "a", Columns := ["label"] : UniqueIndex }),
       ("b", { Name := "b", Columns := ["x"] })] =
    electMainIndexWith ["a", "b"]
      [("b", { Name := "b", Columns := ["x"] : UniqueIndex }),
       ("a", { Name := "a", Columns := ["label"] })] :=
  claim6_order_independence ["a", "b"]
    [("a", { Name := "a", Columns := ["label"] }),
     ("b", { Name := "b", Columns := ["x"] })]
    [("b", { Name := "b", Columns := ["x"] }),
     ("a", { Name := "a", Columns := ["label"] })]
    (by decide) (by decide) (by decide)

theorem headD_mem_of_ne (l : List String) (h : l.headD "" ≠ "") :
    l.headD "" ∈ l := by
  cases l with
  | nil => exact absurd rfl h
  | cons a t => exact List.mem_cons_self a t

/-- C4 counterexample: in `dbCompositePK` the primary key of table `t`
is the two columns `id` (position 1) and `x` (position 2) under the
constraint `t_old_pk`, and the only sequence is `t_seq_old`.  The query
returns `t_seq_old` although the primary key is not the single column
`id`, and although no sequence matches `t_old_pk` under the claimed
suffix-based normalization (the SQL removes the first occurrence of the
pattern, `_pk` in `t_old_pk` and `_seq` in `t_seq_old`, neither of which
is a suffix position in the sequence name) — refuting both conditions of
the claim as stated. -/
theorem claim4_counterexample :
    readPKSequence dbCompositePK "t" = "t_seq_old" ∧
    specSingleIdPrimaryKey dbCompositePK "t" = false ∧
    specSequenceMatch dbCompositePK "t_old_pk" = false ∧
    dbCompositePK.pkRows.map PKRow.constraintName = ["t_old_pk", "t_old_pk"] :=
  ⟨rfl, rfl, rfl, rfl⟩

/-- C4 (amended): `readPKSequence` returns a non-empty sequence name
only when some primary-key row of the table has column `id` at ordinal
position 1 (the primary key need not consist of that single column),
and the returned value is the name of a sequence whose name, after
removing the first occurrence of `_seq` (optionally preceded by `_id`)
and all underscores, equals that row's constraint name after removing
the first occurrence of `_pk`/`_pkey` (optionally preceded by `_id`)
and all underscores. -/
theorem claim4_pk_sequence (db : Db) (tableName : String)
    (h : readPKSequence db tableName ≠ "") :
    ∃ r ∈ db.pkRows, r.tableName = tableName ∧ r.columnName = "id" ∧
      r.ordinalPosition = 1 ∧
      ∃ s ∈ db.sequences, readPKSequence db tableName = s ∧
        normalizeConstraintName r.constraintName
          = normalizeSequenceName s := by
  have hJ : readPKSequence db tableName =
      ((db.pkRows.filter fun r =>
          r.ordinalPosition == 1 && r.columnName == "id" &&
          r.tableName == tableName).flatMap fun r =>
        db.sequences.filter fun s =>
          normalizeConstraintName r.constraintName
            == normalizeSequenceName s).headD "" := rfl
  have hmem : readPKSequence db tableName ∈
      ((db.pkRows.filter fun r =>
          r.ordinalPosition == 1 && r.columnName == "id" &&
          r.tableName == tableName).flatMap fun r =>
        db.sequences.filter fun s =>
          normalizeConstraintName r.constraintName
            == normalizeSequenceName s) := by
    rw [hJ]
    exact headD_mem_of_ne _ (by rw [← hJ]; exact h)
  obtain ⟨r, hr, hs⟩ := List.mem_flatMap.mp hmem
  obtain ⟨hrmem, hrpred⟩ := List.mem_filter.mp hr
  obtain ⟨hsmem, hspred⟩ := List.mem_filter.mp hs
  have hpred := hrpred
  simp only [Bool.and_eq_true, beq_iff_eq] at hpred
  exact ⟨r, hrmem, hpred.2, hpred.1.2, hpred.1.1, readPKSequence db tableName,
    hsmem, rfl, by simpa using hspred⟩

/-- Witness for the amended C4: table `w` with single-column primary
key `id` (constraint `w_pk`) and sequence `w_seq`; the query returns the
non-empty name `w_seq` and the characterization applies. -/
theorem claim4_pk_sequence_witness :
    ∃ r ∈ dbSingleIdPK.pkRows, r.tableName = "w" ∧ r.columnName = "id" ∧
      r.ordinalPosition = 1 ∧
      ∃ s ∈ dbSingleIdPK.sequences, readPKSequence dbSingleIdPK "w" = s ∧
        normalizeConstraintName r.constraintName
          = normalizeSequenceName s :=
  claim4_pk_sequence dbSingleIdPK "w" (by decide)

theorem exceptBind_ok {α β : Type} (x : Except String α)
    (f : α → Except String β) (b : β) (h : x >>= f = Except.ok b) :
    ∃ a, x = Except.ok a ∧ f a = Except.ok b := by
  cases x with
  | error e => simp [Bind.bind, Except.bind] at h
  | ok a => exact ⟨a, rfl, by simpa [Bind.bind, Except.bind] using h⟩

theorem assembleTableE_name (db : DbE) (t : String) (tbl : Table)
    (h : assembleTableE db t = Except.ok tbl) : tbl.Name = t := by
  unfold assembleTableE at h
  obtain ⟨columns, h1, h⟩ := exceptBind_ok _ _ _ h
  obtain ⟨pkColumns, h2, h⟩ := exceptBind_ok _ _ _ h
  obtain ⟨pkSequence, h3, h⟩ := exceptBind_ok _ _ _ h
  obtain ⟨indexNames, h4, h⟩ := exceptBind_ok _ _ _ h
  obtain ⟨indexes, h5, h⟩ := exceptBind_ok _ _ _ h
  obtain ⟨constraintNames, h6, h⟩ := exceptBind_ok _ _ _ h
  obtain ⟨references, h7, h⟩ := exceptBind_ok _ _ _ h
  have : tbl = { Name := t, Columns := columns
                 PKColumns := pkColumns.foldl
                   (fun m column => mapInsert m column true) []
                 PKSequence := pkSequence, UniqueIndexes := indexes
                 MainUniqueIndexName := electMainIndexWith indexNames indexes
                 References := references } := by
    simpa [pure, Except.pure] using h.symm
  rw [this]

theorem exceptMapM_ok {α β : Type} (f : α → Except String β) :
    ∀ (l : List α) (r : List β), l.mapM f = Except.ok r →
      List.Forall₂ (fun a b => f a = Except.ok b) l r := by
  intro l
  induction l with
  | nil =>
    intro r h
    have h0 : (List.mapM f ([] : List α)) = Except.ok ([] : List β) := rfl
    rw [h0] at h
    cases h
    exact List.Forall₂.nil
  | cons a t ih =>
    intro r h
    rw [List.mapM_cons] at h
    obtain ⟨b, hb, h⟩ := exceptBind_ok _ _ _ h
    obtain ⟨bs, hbs, h⟩ := exceptBind_ok _ _ _ h
    have : b :: bs = r := by simpa [pure, Except.pure] using h
    rw [← this]
    exact List.Forall₂.cons hb (ih bs hbs)

theorem forall₂_assembled_names (db : DbE) (names : List String)
    (ts : List Table)
    (h : List.Forall₂ (fun n tb => assembleTableE db n = Except.ok tb) names ts) :
    ts.map Table.Name = names := by
  induction h with
  | nil => rfl
  | @cons n tb names2 ts2 h1 h2 ih =>
    simp [List.map_cons, ih, assembleTableE_name _ _ _ h1]

theorem correctionPass_names (l : List Table) :
    (correctionPass l).map Table.Name = l.map Table.Name := by
  rw [correctionPass_eq_map, List.map_map]
  refine List.map_congr_left fun x _ => ?_
  show Table.Name (stepTable l x) = Table.Name x
  unfold stepTable
  split <;> rfl

/-- C9: if any catalog metadata query fails, the run aborts with that
error and no partial table model is returned; `ReadTables` (modeled with
fallible queries as `ReadTablesE`) either terminates with an error or
returns a model covering every target table — one `Table` per target
name, in order, never a prefix of the tables. -/
theorem claim9_fail_fast (db : DbE) :
    (∃ e, ReadTablesE db = Except.error e) ∨
    (∃ r, ReadTablesE db = Except.ok r ∧ r.length = readTableNames.length ∧
      r.map Table.Name = readTableNames) := by
  cases hx : ReadTablesE db with
  | error e => exact Or.inl ⟨e, rfl⟩
  | ok r =>
    refine Or.inr ⟨r, rfl, ?_⟩
    unfold ReadTablesE at hx
    obtain ⟨assembled, hmapm, hpure⟩ := exceptBind_ok _ _ _ hx
    have hr : r = correctionPass assembled := by
      simpa [pure, Except.pure] using hpure.symm
    have hnames := forall₂_assembled_names db _ _ (exceptMapM_ok _ _ _ hmapm)
    have hlen : assembled.length = readTableNames.length := by
      have h2 := congrArg List.length hnames
      simpa using h2
    constructor
    · rw [hr, correctionPass_length, hlen]
    · rw [hr, correctionPass_names, hnames]

end SchemaReader
